import Mathlib


/-!
# Verification of marmite `src/content.rs`

Shallow embedding of the content-metadata core of the marmite static site
generator (`src/content.rs`): field extractors over parsed front-matter
(`get_title`, `get_slug`, `get_stream`, `get_date`), the text normalizer
(`slugify`), the duplicate-slug checker and the grouped-content iteration
order, together with proofs of the specification's claims about them.

Text is modelled as `List Char` (Unicode scalar values, as in Rust `&str`
iteration by `char`).  Fallible Rust code (`unwrap` panics, `process::exit`)
is modelled with `Option` / explicit outcome types.
-/

abbrev Str := List Char

/-! ## Rust string primitives -/

/-- Rust `char::is_whitespace`: the Unicode `White_Space` property
(the full list of White_Space code points as of Unicode 15). -/
def isRustWs (c : Char) : Bool :=
  let n := c.toNat
  n = 0x20 || n = 0x09 || n = 0x0A || n = 0x0D || n = 0x0B || n = 0x0C ||
  n = 0x85 || n = 0xA0 || n = 0x1680 || (0x2000 ≤ n && n ≤ 0x200A) ||
  n = 0x2028 || n = 0x2029 || n = 0x202F || n = 0x205F || n = 0x3000

/-- Rust `str::trim_start`. -/
def trimStart (s : Str) : Str := s.dropWhile isRustWs

/-- Rust `str::trim_end`. -/
def trimEnd (s : Str) : Str := (s.reverse.dropWhile isRustWs).reverse

/-- Rust `str::trim` (drop leading and trailing whitespace). -/
def trimStr (s : Str) : Str := trimEnd (trimStart s)

/-- Rust `str::trim_matches(c)`: drop all leading and trailing
occurrences of the character `c`. -/
def trimMatchesChar (c : Char) (s : Str) : Str :=
  ((s.dropWhile (· = c)).reverse.dropWhile (· = c)).reverse

/-- Rust `str::trim_start_matches(c)`: drop all leading occurrences of `c`. -/
def trimStartMatchesChar (c : Char) (s : Str) : Str := s.dropWhile (· = c)

/-- Rust `str::lines`: split on `'\n'`, no empty trailing line for a
final newline, and strip one trailing `'\r'` from each line. -/
def rustLines (s : Str) : List Str :=
  if s = [] then []
  else
    let t := if s.getLast? = some '\n' then s.dropLast else s
    (t.splitOn '\n').map (fun l => if l.getLast? = some '\r' then l.dropLast else l)

/-- `Vec<&str>::join("\n")` on the line list. -/
def joinNl (ls : List Str) : Str := List.intercalate ['\n'] ls

/-- Rust `str::replace(pat, rep)`: replace every non-overlapping occurrence
of `pat`, scanning left to right.  (In `content.rs` the pattern is always the
11-character string `"YYYY-MM-DD-"`, hence never empty; for an empty pattern
this model returns the input unchanged.) -/
def replaceAllAux (pat rep : Str) : Nat → Str → Str
  | _, [] => []
  | 0, s => s
  | fuel + 1, c :: s =>
    if pat ≠ [] ∧ pat.isPrefixOf (c :: s) then
      rep ++ replaceAllAux pat rep fuel ((c :: s).drop pat.length)
    else
      c :: replaceAllAux pat rep fuel s

/-- `replaceAllAux` with enough fuel; every step consumes at least one input
character, so fuel equal to the input length never runs out. -/
def replaceAll (pat rep s : Str) : Str := replaceAllAux pat rep s.length s

/-! ## Front-matter values (`frontmatter_gen::Value`)

`as_str` is `Some` exactly on string values.  `Display` wraps strings in
double quotes; numbers are modelled as integers (the claims never observe a
number's rendering, only whether a value is a string). -/

inductive Value where
  | vstr (s : Str)
  | vnum (n : Int)
  | vbool (b : Bool)
  | varr (vs : List Value)
  | vnull

/-- `Value::as_str`: `Some` only for string values. -/
def Value.asStr : Value → Option Str
  | .vstr s => some s
  | _ => none

/-- Decimal digits of a natural number. -/
def natDigits (n : Nat) : Str := Nat.toDigits 10 n

mutual

/-- `Value`'s `Display` (what `Value::to_string()` produces):
strings are wrapped in double quotes, arrays bracketed and comma-joined. -/
def Value.display : Value → Str
  | .vstr s => '"' :: (s ++ ['"'])
  | .vnum n => if n < 0 then '-' :: natDigits n.natAbs else natDigits n.natAbs
  | .vbool b => if b then "true".toList else "false".toList
  | .varr vs => '[' :: (Value.displayList vs ++ [']'])
  | .vnull => "null".toList

/-- Comma-joined rendering of an array's elements. -/
def Value.displayList : List Value → Str
  | [] => []
  | [v] => Value.display v
  | v :: v2 :: vs => Value.display v ++ ", ".toList ++ Value.displayList (v2 :: vs)

end

/-- Parsed front-matter: a key/value map (`frontmatter_gen::Frontmatter`),
modelled as an association list queried by key. -/
abbrev Frontmatter := List (Str × Value)

/-- `Frontmatter::get`. -/
def Frontmatter.get (fm : Frontmatter) (k : Str) : Option Value :=
  (fm.find? (fun p => p.1 == k)).map (·.2)

/-! ## Datetimes (`chrono::NaiveDateTime`) and comparators -/

/-- `chrono::NaiveDateTime` (no timezone), as calendar fields. -/
structure NaiveDateTime where
  year : Nat
  month : Nat
  day : Nat
  hour : Nat
  minute : Nat
  second : Nat
  deriving DecidableEq, Repr

/-- chrono's `Ord` on `NaiveDateTime` is chronological, i.e. lexicographic
on (year, month, day, hour, minute, second). -/
def dtCmp (a b : NaiveDateTime) : Ordering :=
  (compare a.year b.year).then <| (compare a.month b.month).then <|
  (compare a.day b.day).then <| (compare a.hour b.hour).then <|
  (compare a.minute b.minute).then (compare a.second b.second)

/-- Rust `Option<T>::cmp`: `None` is less than every `Some`. -/
def optDtCmp : Option NaiveDateTime → Option NaiveDateTime → Ordering
  | none, none => .eq
  | none, some _ => .lt
  | some _, none => .gt
  | some a, some b => dtCmp a b

/-! ## Stable sorting (`Vec::sort_by`)

Rust `sort_by` is a stable sort driven by a three-way comparator; a stable
sort's output is uniquely determined by the comparator, so we model it with
stable insertion sort: a later element `x` moves past `y` only while
`cmp x y = gt`, so comparator-equal elements keep their original order. -/

def insertCmp (cmp : α → α → Ordering) (x : α) : List α → List α
  | [] => [x]
  | y :: ys => if cmp x y = .gt then y :: insertCmp cmp x ys else x :: y :: ys

def sortByCmp (cmp : α → α → Ordering) : List α → List α
  | [] => []
  | x :: xs => insertCmp cmp x (sortByCmp cmp xs)

/-! ## Text normalizer (`slugify`) -/

/-- The regex character class `[a-z0-9]` from `slugify`. -/
def isSlugAlnum (c : Char) : Bool := ('a' ≤ c && c ≤ 'z') || ('0' ≤ c && c ≤ '9')

/-- State machine for `Regex::replace_all("[^a-z0-9]+", "-")`: each maximal
run of characters outside `[a-z0-9]` becomes a single `'-'`; `inRun` records
being inside a run whose hyphen was already emitted. -/
def collapseAux (inRun : Bool) : Str → Str
  | [] => []
  | c :: cs =>
    if isSlugAlnum c then c :: collapseAux false cs
    else if inRun then collapseAux true cs
    else '-' :: collapseAux true cs

/-- `re.replace_all(&normalized, "-")` for `re = [^a-z0-9]+`. -/
def collapseRuns (s : Str) : Str := collapseAux false s

/-- `slugify`: NFD-normalize, lowercase, collapse `[^a-z0-9]+` runs to `-`,
trim leading/trailing hyphens.  Unicode canonical decomposition
(`str::nfd()` from `unicode_normalization`) and `str::to_lowercase` depend
on large Unicode character tables and are taken as parameters of the model;
theorems hold for every choice, or assume only that the maps fix strings of
characters in `[a-z0-9-]` (which is true of real NFD and lowercasing). -/
def slugify (nfd lower : Str → Str) (text : Str) : Str :=
  trimMatchesChar '-' (collapseRuns (lower (nfd text)))

/-! ## Date resolver (`try_to_parse_date`, `extract_date_from_filename`) -/

/-- chrono numeric field parsing: greedily consume at least one and at most
`maxW` ASCII digits, returning the value and the rest of the input.
(chrono additionally accepts an explicitly signed year for `%Y`; signed
years are not modelled.) -/
def scanNum (maxW : Nat) (s : Str) : Option (Nat × Str) :=
  let ds := (s.take maxW).takeWhile Char.isDigit
  if ds = [] then none
  else some (ds.foldl (fun acc c => acc * 10 + (c.toNat - 48)) 0, s.drop ds.length)

/-- Match one literal character of a chrono format string. -/
def expectChar (c : Char) : Str → Option Str
  | [] => none
  | d :: s => if d = c then some s else none

def isLeapYear (y : Nat) : Bool := y % 4 = 0 && (y % 100 ≠ 0 || y % 400 = 0)

def daysInMonth (y m : Nat) : Nat :=
  if m = 2 then (if isLeapYear y then 29 else 28)
  else if m = 4 || m = 6 || m = 9 || m = 11 then 30
  else 31

/-- Calendar validation performed by chrono when a parsed date is resolved. -/
def validYmd (y m d : Nat) : Bool := 1 ≤ m && m ≤ 12 && 1 ≤ d && d ≤ daysInMonth y m

/-- Time-of-day validation (chrono also admits `60` seconds as a
leap-second encoding; leap seconds are not modelled). -/
def validHms (h mi s : Nat) : Bool := h ≤ 23 && mi ≤ 59 && s ≤ 59

/-- Parse the `%Y-%m-%d` prefix of a chrono format (year up to 4 digits,
month and day up to 2, separated by literal hyphens). -/
def parseYmdPrefix (s : Str) : Option ((Nat × Nat × Nat) × Str) := do
  let (y, s) ← scanNum 4 s
  let s ← expectChar '-' s
  let (m, s) ← scanNum 2 s
  let s ← expectChar '-' s
  let (d, s) ← scanNum 2 s
  pure ((y, m, d), s)

/-- `NaiveDateTime::parse_from_str(input, "%Y-%m-%d %H:%M:%S")`.  The
literal space is chrono `Item::Space`, consuming any (possibly empty) run
of whitespace; the whole input must be consumed, and the parsed fields must
form a valid calendar date and time. -/
def parseFmtFull (s : Str) : Option NaiveDateTime := do
  let ((y, m, d), s) ← parseYmdPrefix s
  let s := s.dropWhile isRustWs
  let (h, s) ← scanNum 2 s
  let s ← expectChar ':' s
  let (mi, s) ← scanNum 2 s
  let s ← expectChar ':' s
  let (sec, s) ← scanNum 2 s
  if s = [] ∧ validYmd y m d ∧ validHms h mi sec then
    pure ⟨y, m, d, h, mi, sec⟩
  else none

/-- `NaiveDateTime::parse_from_str(input, "%Y-%m-%d %H:%M")` (seconds 0). -/
def parseFmtMin (s : Str) : Option NaiveDateTime := do
  let ((y, m, d), s) ← parseYmdPrefix s
  let s := s.dropWhile isRustWs
  let (h, s) ← scanNum 2 s
  let s ← expectChar ':' s
  let (mi, s) ← scanNum 2 s
  if s = [] ∧ validYmd y m d ∧ validHms h mi 0 then
    pure ⟨y, m, d, h, mi, 0⟩
  else none

/-- `NaiveDate::parse_from_str(input, "%Y-%m-%d")` followed by
`.and_hms_opt(0, 0, 0)` (time defaults to midnight). -/
def parseFmtDate (s : Str) : Option NaiveDateTime := do
  let ((y, m, d), s) ← parseYmdPrefix s
  if s = [] ∧ validYmd y m d then pure ⟨y, m, d, 0, 0, 0⟩ else none

/-- `try_to_parse_date`: the three accepted formats, in order. -/
def try_to_parse_date (input : Str) : Option NaiveDateTime :=
  (parseFmtFull input).orElse fun _ =>
    (parseFmtMin input).orElse fun _ => parseFmtDate input

/-- Leftmost match of the regex `\d{4}-\d{2}-\d{2}` starting at the present
position: the ten matched characters.  (The `regex` crate's `\d` is Unicode
`\p{Nd}`; only ASCII digits are modelled.  A match containing a non-ASCII
digit never parses as a date in the real code, but could shadow a later
ASCII match; such paths fall outside this model.) -/
def matchDateAt (s : Str) : Option Str :=
  match s with
  | a :: b :: c :: d :: h1 :: e :: f :: h2 :: g :: i :: _ =>
    if a.isDigit && b.isDigit && c.isDigit && d.isDigit && h1 == '-' &&
       e.isDigit && f.isDigit && h2 == '-' && g.isDigit && i.isDigit
    then some [a, b, c, d, h1, e, f, h2, g, i] else none
  | _ => none

/-- `Regex::find`: leftmost match of `\d{4}-\d{2}-\d{2}` in the string. -/
def findFirstDateMatch : Str → Option Str
  | [] => none
  | c :: s =>
    match matchDateAt (c :: s) with
    | some m => some m
    | none => findFirstDateMatch s

/-- `extract_date_from_filename`: regex-scan the whole path string for the
first `\d{4}-\d{2}-\d{2}` match and parse it with `%Y-%m-%d` at midnight;
an invalid first match (e.g. month 13) yields `None` without further
scanning (`find` then `and_then`). -/
def extract_date_from_filename (path : Str) : Option NaiveDateTime :=
  (findFirstDateMatch path).bind parseFmtDate

/-! ## Field extractors -/

/-- Outcome of `get_date`: `fatal` models the `error!` log followed by
`process::exit(1)`; `result` is a normally returned `Option<NaiveDateTime>`. -/
inductive DateOutcome where
  | fatal
  | result (d : Option NaiveDateTime)
  deriving DecidableEq

/-- `get_date`: front-matter `date` (string values only, via `as_str`) takes
precedence; a string that fails all three formats is fatal; otherwise fall
back to the filename scan. -/
def get_date (fm : Frontmatter) (path : Str) : DateOutcome :=
  match (fm.get "date".toList).bind Value.asStr with
  | some input =>
    match try_to_parse_date input with
    | some d => .result (some d)
    | none => .fatal
  | none => .result (extract_date_from_filename path)

/-- `get_stream`; the outer `Option` models the `as_str().unwrap()` panic on
a non-string `stream` value (`none` = panic), the inner `Option` is the Rust
return type `Option<String>`. -/
def get_stream (fm : Frontmatter) : Option (Option Str) :=
  match fm.get "stream".toList with
  | some v =>
    match v.asStr with
    | some s => some (some (trimMatchesChar '"' s))
    | none => none
  | none => some (some "index".toList)

/-- Rust `Path::file_name`: the last normal component of the path (`None`
for an empty path or one ending in `..`); `.` components and empty
components (repeated or trailing separators) are skipped. -/
def fileName (path : Str) : Option Str :=
  let comps := (path.splitOn '/').filter (fun c => !(c == [] || c == ['.']))
  match comps.getLast? with
  | none => none
  | some last => if last = "..".toList then none else some last

/-- Rust `Path::file_stem` applied to a file name: the portion before the
final `.`, or the whole name if there is no `.` or the only `.` is leading. -/
def fileStem (name : Str) : Str :=
  if name.contains '.' then
    let pre := ((name.reverse.dropWhile (· ≠ '.')).drop 1).reverse
    if pre = [] then name else pre
  else name

/-- `NaiveDate`'s `Display` (`format!("{}", date.date())`): zero-padded
`YYYY-MM-DD`.  (chrono renders years outside `0..=9999` with an explicit
sign; such years cannot arise from the 4-digit filename scan.) -/
def pad2 (n : Nat) : Str := if n < 10 then '0' :: natDigits n else natDigits n

def pad4 (n : Nat) : Str :=
  if n < 10 then '0' :: '0' :: '0' :: natDigits n
  else if n < 100 then '0' :: '0' :: natDigits n
  else if n < 1000 then '0' :: natDigits n
  else natDigits n

def dateDisplay (d : NaiveDateTime) : Str :=
  pad4 d.year ++ '-' :: (pad2 d.month ++ '-' :: pad2 d.day)

/-- `get_slug`; `none` models a panic: a non-string `stream` value
(`get_stream(frontmatter).unwrap()` on the model's panic marker) or a path
with no file name (`path.file_stem()...unwrap()`).  The `slug` and `title`
branches are slugified from the value's `to_string()` rendering; the
filename branch uses the stem verbatim, deleting `format!("{}-", date)`
when the filename scan finds a date, then `"{stream}-"` is prepended
whenever the resolved stream is not `"index"`. -/
def get_slug (nfd lower : Str → Str) (fm : Frontmatter) (path : Str) : Option Str :=
  match get_stream fm with
  | none => none
  | some none => none
  | some (some stream) =>
    let slugBase : Option Str :=
      match fm.get "slug".toList with
      | some slug => some (slugify nfd lower (Value.display slug))
      | none =>
        match fm.get "title".toList with
        | some title => some (slugify nfd lower (Value.display title))
        | none =>
          match fileName path with
          | none => none
          | some name =>
            let stem := fileStem name
            match extract_date_from_filename path with
            | some date => some (replaceAll (dateDisplay date ++ ['-']) [] stem)
            | none => some stem
    match slugBase with
    | none => none
    | some finalSlug =>
      if stream = "index".toList then some finalSlug
      else some (stream ++ '-' :: finalSlug)

/-- `get_title`: front-matter `title` when present as a string; else the
first non-empty line of the body, with leading `#`s then surrounding
whitespace stripped (empty string when there is no non-empty line).  The
returned body drops leading lines that are blank, that are `#`-heading
lines matching the title, or whose trimmed text equals the title. -/
def get_title (fm : Frontmatter) (markdown : Str) : Str × Str :=
  let title : Str :=
    match fm.get "title".toList with
    | some (Value.vstr t) => t
    | _ =>
      trimStr (trimStartMatchesChar '#'
        (((rustLines markdown).find? (fun l => !(l == []))).getD []))
  let body : Str := joinNl ((rustLines markdown).dropWhile (fun line =>
    trimStr line == ([] : Str) ||
    (['#'].isPrefixOf (trimStr line) &&
      trimStr (trimStartMatchesChar '#' line) == title) ||
    trimStr line == title))
  (title, body)

/-! ## Content records and duplicate checking -/

/-- The `Content` record.  `back_links` holds owned copies of other records,
so `Content` is a nested inductive type. -/
inductive Content where
  | mk
    (title : Str)
    (description : Option Str)
    (slug : Str)
    (html : Str)
    (tags : List Str)
    (date : Option NaiveDateTime)
    (extra : Option Value)
    (links_to : Option (List Str))
    (back_links : List Content)
    (card_image : Option Str)
    (banner_image : Option Str)
    (authors : List Str)
    (stream : Option Str)

def Content.slug : Content → Str
  | .mk _ _ s _ _ _ _ _ _ _ _ _ _ => s

def Content.date : Content → Option NaiveDateTime
  | .mk _ _ _ _ _ d _ _ _ _ _ _ _ => d

/-- The scan loop of `check_for_duplicate_slugs` with its `seen` set
(`HashSet::insert` returns `false` when the element was present). -/
def checkDupAux : List Content → List Str → Except Str Unit
  | [], _ => .ok ()
  | c :: rest, seen =>
    if c.slug ∈ seen then .error c.slug else checkDupAux rest (c.slug :: seen)

/-- `check_for_duplicate_slugs`. -/
def check_for_duplicate_slugs (contents : List Content) : Except Str Unit :=
  checkDupAux contents []

/-! ## Grouped content (`GroupedContent::iter`, `Kind::Tag` arm) -/

/-- Comparator `|a, b| b.date.cmp(&a.date)` (date descending, `None` last). -/
def dateDescCmp (a b : Content) : Ordering := optDtCmp b.date a.date

/-- Comparator `|a, b| b.1.len().cmp(&a.1.len())` (bucket size descending). -/
def sizeDescCmp (a b : Str × List Content) : Ordering :=
  compare b.2.length a.2.length

/-- The `Kind::Tag` arm of `GroupedContent::iter`: clone and date-sort each
bucket, then sort the bucket list by size descending.  The input list is the
backing `HashMap` in its (arbitrary) iteration order. -/
def iterTag (m : List (Str × List Content)) : List (Str × List Content) :=
  sortByCmp sizeDescCmp (m.map (fun kv => (kv.1, sortByCmp dateDescCmp kv.2)))

/-! ## Properties of the text normalizer -/

/-- Characters admissible in a slug: `[a-z0-9-]`. -/
def isSlugChar (c : Char) : Bool := isSlugAlnum c || c = '-'

/-- No two adjacent hyphens. -/
def NoTwoHyphens (s : Str) : Prop := s.Chain' (fun a b => ¬(a = '-' ∧ b = '-'))

/-- A concrete content record for witnesses (only `slug` and `date` matter
to the claims). -/
def testContent (slug : Str) (date : Option NaiveDateTime) : Content :=
  .mk [] none slug [] [] date none none [] none none [] none

/-- Rust `str::contains(&str)`: substring test. -/
def containsStr (hay pat : Str) : Bool :=
  match hay with
  | [] => pat == []
  | _ :: t => pat.isPrefixOf hay || containsStr t pat

/-- The claim's description of the fallback title: the first non-empty line
of the document body, with leading `#` markers and surrounding whitespace
stripped; the empty string when every line is empty. -/
def specFallbackTitle (markdown : Str) : Str :=
  trimStr (trimStartMatchesChar '#'
    (((rustLines markdown).find? (fun l => !(l == []))).getD []))

/-- Deletion of only the first occurrence of `pat`, as claim C2 describes
the date removal. -/
def removeFirstOcc (pat : Str) : Str → Str
  | [] => []
  | c :: s =>
    if pat.isPrefixOf (c :: s) then (c :: s).drop pat.length
    else c :: removeFirstOcc pat s

theorem ordThen_eq_gt (o p : Ordering) :
    o.then p = .gt ↔ (o = .gt ∨ (o = .eq ∧ p = .gt)) := by
  cases o <;> simp [Ordering.then]

theorem ordThen_eq_lt (o p : Ordering) :
    o.then p = .lt ↔ (o = .lt ∨ (o = .eq ∧ p = .lt)) := by
  cases o <;> simp [Ordering.then]

theorem ordThen_eq_eq (o p : Ordering) :
    o.then p = .eq ↔ (o = .eq ∧ p = .eq) := by
  cases o <;> simp [Ordering.then]

theorem dtCmp_gt_iff (a b : NaiveDateTime) : dtCmp a b = .gt ↔ dtCmp b a = .lt := by
  simp only [dtCmp, ordThen_eq_gt, ordThen_eq_lt,
    Nat.compare_eq_gt, Nat.compare_eq_lt, Nat.compare_eq_eq]
  omega

theorem dtCmp_self (a : NaiveDateTime) : dtCmp a a = .eq := by
  simp [dtCmp, ordThen_eq_eq, Nat.compare_eq_eq]

theorem dtCmp_notGt_trans {a b c : NaiveDateTime}
    (h1 : dtCmp a b ≠ .gt) (h2 : dtCmp b c ≠ .gt) : dtCmp a c ≠ .gt := by
  simp only [dtCmp, ne_eq, ordThen_eq_gt,
    Nat.compare_eq_gt, Nat.compare_eq_eq] at h1 h2 ⊢
  omega

theorem optDtCmp_gt_iff (a b : Option NaiveDateTime) :
    optDtCmp a b = .gt ↔ optDtCmp b a = .lt := by
  cases a <;> cases b <;> simp [optDtCmp, dtCmp_gt_iff]

theorem optDtCmp_notGt_trans {a b c : Option NaiveDateTime}
    (h1 : optDtCmp a b ≠ .gt) (h2 : optDtCmp b c ≠ .gt) : optDtCmp a c ≠ .gt := by
  match a, b, c with
  | none, _, none => simp [optDtCmp]
  | none, none, some _ => simp [optDtCmp]
  | none, some _, some _ => simp [optDtCmp]
  | some _, none, _ => exact absurd rfl h1
  | some _, some _, none => exact absurd rfl h2
  | some x, some y, some z => exact dtCmp_notGt_trans h1 h2

theorem dtCmp_eq_of_eq {a b : NaiveDateTime} (h : a = b) : dtCmp a b = .eq := by
  subst h; exact dtCmp_self a

theorem insertCmp_perm (cmp : α → α → Ordering) (x : α) (l : List α) :
    (insertCmp cmp x l).Perm (x :: l) := by
  induction l with
  | nil => simp [insertCmp]
  | cons y ys ih =>
    simp only [insertCmp]
    split
    · exact ((ih.cons y).trans (List.Perm.swap x y ys))
    · exact List.Perm.refl _

theorem sortByCmp_perm (cmp : α → α → Ordering) (l : List α) :
    (sortByCmp cmp l).Perm l := by
  induction l with
  | nil => simp [sortByCmp]
  | cons x xs ih => exact (insertCmp_perm cmp x (sortByCmp cmp xs)).trans (ih.cons x)

theorem insertCmp_pairwise (cmp : α → α → Ordering)
    (hsw : ∀ a b, cmp a b = .gt → cmp b a ≠ .gt)
    (htr : ∀ a b c, cmp a b ≠ .gt → cmp b c ≠ .gt → cmp a c ≠ .gt)
    (x : α) {l : List α} (hl : l.Pairwise (fun a b => cmp a b ≠ .gt)) :
    (insertCmp cmp x l).Pairwise (fun a b => cmp a b ≠ .gt) := by
  induction l with
  | nil => simp [insertCmp]
  | cons y ys ih =>
    rcases List.pairwise_cons.1 hl with ⟨hy, hys⟩
    simp only [insertCmp]
    split
    · rename_i hgt
      refine List.pairwise_cons.2 ⟨?_, ih hys⟩
      intro z hz
      rcases List.mem_cons.1 ((List.Perm.mem_iff (insertCmp_perm cmp x ys)).1 hz) with hzx | hzys
      · rw [hzx]; exact hsw x y hgt
      · exact hy z hzys
    · rename_i hle
      refine List.pairwise_cons.2 ⟨?_, hl⟩
      intro z hz
      rcases List.mem_cons.1 hz with hzy | hzys
      · rw [hzy]; exact hle
      · exact htr x y z hle (hy z hzys)

theorem sortByCmp_pairwise (cmp : α → α → Ordering)
    (hsw : ∀ a b, cmp a b = .gt → cmp b a ≠ .gt)
    (htr : ∀ a b c, cmp a b ≠ .gt → cmp b c ≠ .gt → cmp a c ≠ .gt)
    (l : List α) :
    (sortByCmp cmp l).Pairwise (fun a b => cmp a b ≠ .gt) := by
  induction l with
  | nil => simp [sortByCmp]
  | cons x xs ih => exact insertCmp_pairwise cmp hsw htr x ih

theorem insertCmp_filter_neg (cmp : α → α → Ordering) (p : α → Bool)
    (x : α) (hx : p x = false) (l : List α) :
    (insertCmp cmp x l).filter p = l.filter p := by
  induction l with
  | nil => simp [insertCmp, hx]
  | cons y ys ih =>
    simp only [insertCmp]
    split
    · simp only [List.filter_cons]
      split <;> simp [ih]
    · simp [List.filter_cons, hx]

theorem insertCmp_filter_pos (cmp : α → α → Ordering) (p : α → Bool)
    (hp : ∀ a b, p a = true → p b = true → cmp a b = .eq)
    (x : α) (hx : p x = true) (l : List α) :
    (insertCmp cmp x l).filter p = x :: l.filter p := by
  induction l with
  | nil => simp [insertCmp, hx]
  | cons y ys ih =>
    simp only [insertCmp]
    split
    · rename_i hgt
      have hy : p y = false := by
        cases hpy : p y with
        | false => rfl
        | true => rw [hp x y hx hpy] at hgt; simp at hgt
      simp [List.filter_cons, hy, ih]
    · simp [List.filter_cons, hx]

theorem sortByCmp_filter (cmp : α → α → Ordering) (p : α → Bool)
    (hp : ∀ a b, p a = true → p b = true → cmp a b = .eq) (l : List α) :
    (sortByCmp cmp l).filter p = l.filter p := by
  induction l with
  | nil => simp [sortByCmp]
  | cons x xs ih =>
    simp only [sortByCmp]
    cases hx : p x with
    | false =>
      rw [insertCmp_filter_neg cmp p x hx, ih, List.filter_cons, hx]; simp
    | true =>
      rw [insertCmp_filter_pos cmp p hp x hx, ih, List.filter_cons, hx]; simp

theorem collapseAux_mem {b : Bool} {s : Str} {c : Char} (h : c ∈ collapseAux b s) :
    isSlugChar c = true := by
  induction s generalizing b with
  | nil => simp [collapseAux] at h
  | cons d ds ih =>
    simp only [collapseAux] at h
    split at h
    · rename_i hd
      rcases List.mem_cons.1 h with rfl | h2
      · simp [isSlugChar, hd]
      · exact ih h2
    · split at h
      · exact ih h
      · rcases List.mem_cons.1 h with rfl | h2
        · simp [isSlugChar]
        · exact ih h2

theorem collapseAux_true_head {s : Str} {c : Char}
    (h : (collapseAux true s).head? = some c) : isSlugAlnum c = true := by
  induction s with
  | nil => simp [collapseAux] at h
  | cons d ds ih =>
    simp only [collapseAux] at h
    split at h
    · rename_i hd
      simp only [List.head?_cons, Option.some_inj] at h
      rw [← h]; exact hd
    · exact ih h

theorem collapseAux_chain (b : Bool) (s : Str) :
    (collapseAux b s).Chain' (fun a c => ¬(a = '-' ∧ c = '-')) := by
  induction s generalizing b with
  | nil => simp [collapseAux]
  | cons d ds ih =>
    simp only [collapseAux]
    split
    · rename_i hd
      refine List.chain'_cons'.2 ⟨?_, ih false⟩
      intro y _ hy
      have : isSlugAlnum d = true := hd
      rcases hy with ⟨hd2, _⟩
      rw [hd2] at this
      simp [isSlugAlnum] at this
    · split
      · exact ih true
      · refine List.chain'_cons'.2 ⟨?_, ih true⟩
        intro y hy hcon
        rcases hcon with ⟨_, hy2⟩
        have := collapseAux_true_head hy
        rw [hy2] at this
        simp [isSlugAlnum] at this

theorem head_dropWhile_not {α : Type} (p : α → Bool) (l : List α) {c : α}
    (h : (l.dropWhile p).head? = some c) : p c = false := by
  induction l with
  | nil => simp [List.dropWhile] at h
  | cons a l ih =>
    by_cases hpa : p a = true
    · rw [List.dropWhile_cons_of_pos hpa] at h; exact ih h
    · rw [List.dropWhile_cons_of_neg hpa] at h
      simp only [List.head?_cons, Option.some_inj] at h
      rw [← h]; exact Bool.eq_false_iff.mpr hpa

theorem mem_dropWhile_imp {α : Type} (p : α → Bool) (l : List α) {c : α}
    (h : c ∈ l.dropWhile p) : c ∈ l :=
  (List.dropWhile_suffix p).subset h

theorem chain'_dropWhile {α : Type} {R : α → α → Prop} (p : α → Bool) {l : List α}
    (h : l.Chain' R) : (l.dropWhile p).Chain' R := by
  induction l with
  | nil => simp [List.dropWhile]
  | cons a l ih =>
    by_cases hpa : p a = true
    · rw [List.dropWhile_cons_of_pos hpa]; exact ih h.tail
    · rw [List.dropWhile_cons_of_neg hpa]; exact h

theorem exists_drop_dropWhile {α : Type} (p : α → Bool) (l : List α) :
    ∃ n, l.dropWhile p = l.drop n := by
  induction l with
  | nil => exact ⟨0, rfl⟩
  | cons a l ih =>
    by_cases hpa : p a = true
    · rcases ih with ⟨n, hn⟩
      exact ⟨n + 1, by rw [List.dropWhile_cons_of_pos hpa]; exact hn⟩
    · exact ⟨0, by rw [List.dropWhile_cons_of_neg hpa]; rfl⟩

theorem head?_take_imp {α : Type} {m : Nat} {t : List α} {d : α}
    (h : (t.take m).head? = some d) : t.head? = some d := by
  cases t with
  | nil => simp at h
  | cons a l =>
    cases m with
    | zero => simp at h
    | succ m => simpa using h

/-- `trimMatchesChar c s` is `s.take m` for some `m`, after the leading
`c`s are dropped. -/
theorem trimMatchesChar_eq_take (c : Char) (s : Str) :
    ∃ m, trimMatchesChar c s = (s.dropWhile (· = c)).take m := by
  unfold trimMatchesChar
  rcases exists_drop_dropWhile (· = c) (s.dropWhile (· = c)).reverse with ⟨n, hn⟩
  refine ⟨(s.dropWhile (· = c)).reverse.length - n, ?_⟩
  rw [hn, List.reverse_drop, List.reverse_reverse]

theorem trimMatchesChar_head {c : Char} {s : Str} {d : Char}
    (h : (trimMatchesChar c s).head? = some d) : d ≠ c := by
  rcases trimMatchesChar_eq_take c s with ⟨m, hm⟩
  rw [hm] at h
  have h2 := head?_take_imp h
  have h3 := head_dropWhile_not (· = c) s h2
  simpa using h3

theorem trimMatchesChar_getLast {c : Char} {s : Str} {d : Char}
    (h : (trimMatchesChar c s).getLast? = some d) : d ≠ c := by
  unfold trimMatchesChar at h
  rw [List.getLast?_reverse] at h
  have := head_dropWhile_not (· = c) (s.dropWhile (· = c)).reverse h
  simpa using this

theorem trimMatchesChar_mem {c : Char} {s : Str} {d : Char}
    (h : d ∈ trimMatchesChar c s) : d ∈ s := by
  unfold trimMatchesChar at h
  rw [List.mem_reverse] at h
  have h2 := mem_dropWhile_imp _ _ h
  rw [List.mem_reverse] at h2
  exact mem_dropWhile_imp _ _ h2

theorem trimMatchesChar_chain {c : Char} {s : Str}
    {R : Char → Char → Prop} (h : s.Chain' R) : (trimMatchesChar c s).Chain' R := by
  unfold trimMatchesChar
  rw [List.chain'_reverse]
  apply chain'_dropWhile
  rw [List.chain'_reverse]
  exact chain'_dropWhile _ h

theorem slugify_mem {nfd lower : Str → Str} {x : Str} {c : Char}
    (h : c ∈ slugify nfd lower x) : isSlugChar c = true := by
  unfold slugify at h
  exact collapseAux_mem (trimMatchesChar_mem h)

theorem slugify_head {nfd lower : Str → Str} {x : Str} :
    (slugify nfd lower x).head? ≠ some '-' := by
  intro h
  exact trimMatchesChar_head h rfl

theorem slugify_getLast {nfd lower : Str → Str} {x : Str} :
    (slugify nfd lower x).getLast? ≠ some '-' := by
  intro h
  exact trimMatchesChar_getLast h rfl

theorem slugify_chain (nfd lower : Str → Str) (x : Str) :
    NoTwoHyphens (slugify nfd lower x) :=
  trimMatchesChar_chain (collapseAux_chain false _)

theorem collapseAux_fixed (s : Str)
    (halpha : ∀ c ∈ s, isSlugChar c = true)
    (hchain : NoTwoHyphens s) :
    collapseAux false s = s ∧ (s.head? ≠ some '-' → collapseAux true s = s) := by
  induction s with
  | nil => exact ⟨rfl, fun _ => rfl⟩
  | cons d ds ih =>
    have hd := halpha d (List.mem_cons_self d ds)
    rcases List.chain'_cons'.1 hchain with ⟨hrel, htail⟩
    have ihds := ih (fun c hc => halpha c (List.mem_cons_of_mem d hc)) htail
    cases ha : isSlugAlnum d with
    | true =>
      constructor
      · show (if isSlugAlnum d then d :: collapseAux false ds else _) = _
        rw [if_pos ha, ihds.1]
      · intro _
        show (if isSlugAlnum d then d :: collapseAux false ds else _) = _
        rw [if_pos ha, ihds.1]
    | false =>
      have hdh : d = '-' := by
        simp [isSlugChar, ha] at hd
        exact hd
      have hdsHead : ds.head? ≠ some '-' := by
        intro hh
        cases hds : ds with
        | nil => rw [hds] at hh; simp at hh
        | cons e es =>
          rw [hds] at hh
          simp only [List.head?_cons, Option.some_inj] at hh
          exact hrel e (by rw [hds]; rfl) ⟨hdh, hh⟩
      constructor
      · show (if isSlugAlnum d then _ else if false then _ else '-' :: collapseAux true ds) = _
        rw [if_neg (by simp [ha]), if_neg (by simp), ihds.2 hdsHead, hdh]
      · intro hh
        exact absurd (by rw [hdh]; rfl : (d :: ds).head? = some '-') hh

/-- `collapseRuns` fixes strings over `[a-z0-9-]` with no adjacent hyphens. -/
theorem collapseRuns_fixed {s : Str}
    (halpha : ∀ c ∈ s, isSlugChar c = true) (hchain : NoTwoHyphens s) :
    collapseRuns s = s :=
  (collapseAux_fixed s halpha hchain).1

/-- `trim_matches('-')` fixes strings with no leading or trailing hyphen. -/
theorem trimMatchesChar_fixed {s : Str}
    (hh : s.head? ≠ some '-') (hl : s.getLast? ≠ some '-') :
    trimMatchesChar '-' s = s := by
  unfold trimMatchesChar
  have step1 : s.dropWhile (· = '-') = s := by
    cases s with
    | nil => rfl
    | cons a l =>
      have : ¬ ((fun x => decide (x = '-')) a = true) := by
        simp only [List.head?_cons, Option.some_inj, ne_eq] at hh
        simp [hh]
      exact List.dropWhile_cons_of_neg this
  rw [step1]
  have step2 : s.reverse.dropWhile (· = '-') = s.reverse := by
    cases hr : s.reverse with
    | nil => rfl
    | cons a l =>
      have ha : a ≠ '-' := by
        intro hac
        apply hl
        rw [← List.head?_reverse, hr, List.head?_cons, hac]
      exact List.dropWhile_cons_of_neg (by simp [ha])
  rw [step2, List.reverse_reverse]

theorem optDtCmp_self (a : Option NaiveDateTime) : optDtCmp a a = .eq := by
  cases a <;> simp [optDtCmp, dtCmp_self]

/-! ## Claims -/

/-- C6: for every text `x` (whatever the NFD and lowercase maps do),
`slugify x` contains only characters in `{a-z, 0-9, -}` and, when
non-empty, neither its first nor its last character is `'-'`. -/
theorem C6_slugify_alphabet (nfd lower : Str → Str) (x : Str) :
    (∀ c ∈ slugify nfd lower x, isSlugChar c = true) ∧
    (slugify nfd lower x).head? ≠ some '-' ∧
    (slugify nfd lower x).getLast? ≠ some '-' :=
  ⟨fun _ hc => slugify_mem hc, slugify_head, slugify_getLast⟩

/-- C5: `slugify` is idempotent, for any NFD/lowercase maps that fix
strings over the slug alphabet `[a-z0-9-]` (true of real Unicode NFD and
lowercasing, whose tables fix ASCII lowercase letters, digits and `-`). -/
theorem C5_slugify_idempotent (nfd lower : Str → Str)
    (hn : ∀ t : Str, (∀ c ∈ t, isSlugChar c = true) → nfd t = t)
    (hl : ∀ t : Str, (∀ c ∈ t, isSlugChar c = true) → lower t = t)
    (x : Str) :
    slugify nfd lower (slugify nfd lower x) = slugify nfd lower x := by
  have halpha : ∀ c ∈ slugify nfd lower x, isSlugChar c = true :=
    fun _ hc => slugify_mem hc
  show trimMatchesChar '-' (collapseRuns (lower (nfd (slugify nfd lower x)))) = _
  rw [hn _ halpha, hl _ halpha,
    collapseRuns_fixed halpha (slugify_chain nfd lower x),
    trimMatchesChar_fixed slugify_head slugify_getLast]

theorem C5_slugify_idempotent_witness :
    slugify id id (slugify id id "Hello,  World!".toList) =
      slugify id id "Hello,  World!".toList :=
  C5_slugify_idempotent id id (fun _ _ => rfl) (fun _ _ => rfl) _

/-- C3: a front-matter `date` holding a string that parses as none of the
three accepted formats is fatal: `get_date` logs and exits the process
(modelled as the `fatal` outcome), producing no date; the conclusion holds
for every path, so the filename is never consulted. -/
theorem C3_invalid_date_fatal (fm : Frontmatter) (path : Str) (s : Str)
    (hget : fm.get "date".toList = some (Value.vstr s))
    (hparse : try_to_parse_date s = none) :
    get_date fm path = .fatal := by
  unfold get_date
  rw [hget]
  simp [Value.asStr, hparse]

theorem C3_invalid_date_fatal_witness :
    get_date [("date".toList, Value.vstr "not-a-date".toList)]
      "2024-01-01-post.md".toList = .fatal :=
  C3_invalid_date_fatal _ _ "not-a-date".toList rfl (by decide)

/-- C10: a non-string front-matter `date` value (anything `as_str` rejects)
raises no error and is treated exactly like an absent key: the result is the
filename scan, and the fatal branch is not reached. -/
theorem C10_nonstring_date_ignored (fm : Frontmatter) (path : Str) (v : Value)
    (hget : fm.get "date".toList = some v) (hstr : v.asStr = none) :
    get_date fm path = .result (extract_date_from_filename path) ∧
    get_date fm path ≠ .fatal := by
  have h : get_date fm path = .result (extract_date_from_filename path) := by
    unfold get_date
    rw [hget]
    simp [hstr]
  refine ⟨h, ?_⟩
  rw [h]
  intro hc
  exact DateOutcome.noConfusion hc

theorem C10_nonstring_date_ignored_witness :
    get_date [("date".toList, Value.varr [])] "2024-01-01-x.md".toList =
        .result (extract_date_from_filename "2024-01-01-x.md".toList) ∧
      get_date [("date".toList, Value.varr [])] "2024-01-01-x.md".toList ≠ .fatal :=
  C10_nonstring_date_ignored _ _ (Value.varr []) rfl rfl

/-- C9 counterexample: with `stream` bound to a non-string value the real
code hits `stream.as_str().unwrap()` and panics (model outcome `none`), so
`get_stream` is not total over every front-matter map. -/
theorem C9_counterexample :
    get_stream [("stream".toList, Value.vnum 1)] = none := rfl

/-- C9 amended: `get_stream` never returns an absent value and reaches no
failure branch when the `stream` key is absent (literal `"index"`) or holds
a string value (returned with surrounding `"` characters trimmed); a
non-string value panics (see the counterexample). -/
theorem C9_stream_amended (fm : Frontmatter) :
    (fm.get "stream".toList = none → get_stream fm = some (some "index".toList)) ∧
    (∀ s : Str, fm.get "stream".toList = some (Value.vstr s) →
      get_stream fm = some (some (trimMatchesChar '"' s))) := by
  constructor
  · intro h
    unfold get_stream
    rw [h]
  · intro s h
    unfold get_stream
    rw [h]
    simp [Value.asStr]

theorem C9_stream_amended_witness :
    get_stream [("stream".toList, Value.vstr "\"news\"".toList)] =
      some (some (trimMatchesChar '"' "\"news\"".toList)) :=
  (C9_stream_amended _).2 _ rfl

theorem checkDupAux_ok (l : List Content) (seen : List Str)
    (h : (l.map Content.slug).Nodup)
    (h2 : ∀ s ∈ l.map Content.slug, s ∉ seen) :
    checkDupAux l seen = .ok () := by
  induction l generalizing seen with
  | nil => rfl
  | cons c rest ih =>
    have hcs : c.slug ∉ seen := h2 c.slug (by simp)
    rw [List.map_cons, List.nodup_cons] at h
    show (if c.slug ∈ seen then Except.error c.slug
          else checkDupAux rest (c.slug :: seen)) = _
    rw [if_neg hcs]
    refine ih (c.slug :: seen) h.2 ?_
    intro s hs hmem
    rcases List.mem_cons.1 hmem with hq | hseen
    · exact h.1 (hq ▸ hs)
    · exact h2 s (List.mem_cons_of_mem _ hs) hseen

theorem checkDupAux_err (l1 : List Content) (c : Content) (l2 : List Content)
    (seen : List Str)
    (hnodup : (l1.map Content.slug).Nodup)
    (hnot : ∀ s ∈ l1.map Content.slug, s ∉ seen)
    (hin : c.slug ∈ l1.map Content.slug ∨ c.slug ∈ seen) :
    checkDupAux (l1 ++ c :: l2) seen = .error c.slug := by
  induction l1 generalizing seen with
  | nil =>
    rcases hin with h | h
    · simp at h
    · show (if c.slug ∈ seen then Except.error c.slug else _) = _
      rw [if_pos h]
  | cons a rest ih =>
    rw [List.map_cons, List.nodup_cons] at hnodup
    have has : a.slug ∉ seen := hnot a.slug (by simp)
    show (if a.slug ∈ seen then Except.error a.slug
          else checkDupAux (rest ++ c :: l2) (a.slug :: seen)) = _
    rw [if_neg has]
    refine ih (a.slug :: seen) hnodup.2 ?_ ?_
    · intro s hs hmem
      rcases List.mem_cons.1 hmem with hq | hseen
      · exact hnodup.1 (hq ▸ hs)
      · exact hnot s (List.mem_cons_of_mem _ hs) hseen
    · rcases hin with h | h
      · rcases List.mem_cons.1 h with hq | hrest
        · exact Or.inr (List.mem_cons.2 (Or.inl hq))
        · exact Or.inl hrest
      · exact Or.inr (List.mem_cons_of_mem _ h)

/-- C8: `check_for_duplicate_slugs` succeeds on every list with pairwise
distinct slugs (the empty list included), and on every list that contains a
duplicate it fails with the slug of the first element, in scan order, whose
slug was already seen (the element `c` after a duplicate-free prefix `l1`
containing `c.slug`), never reporting a later duplicate. -/
theorem C8_duplicate_checker :
    (∀ l : List Content, (l.map Content.slug).Nodup →
      check_for_duplicate_slugs l = .ok ()) ∧
    (∀ (l1 : List Content) (c : Content) (l2 : List Content),
      (l1.map Content.slug).Nodup → c.slug ∈ l1.map Content.slug →
      check_for_duplicate_slugs (l1 ++ c :: l2) = .error c.slug) := by
  constructor
  · intro l h
    exact checkDupAux_ok l [] h (by simp)
  · intro l1 c l2 h hin
    exact checkDupAux_err l1 c l2 [] h (by simp) (Or.inl hin)

theorem C8_duplicate_checker_witness :
    check_for_duplicate_slugs
        [testContent "a".toList none, testContent "b".toList none] = .ok () ∧
    check_for_duplicate_slugs
        ([testContent "a".toList none] ++ testContent "a".toList none ::
          [testContent "c".toList none, testContent "a".toList none]) =
      .error (testContent "a".toList none).slug :=
  ⟨C8_duplicate_checker.1 _ (by decide),
   C8_duplicate_checker.2 [testContent "a".toList none] _ _ (by decide) (by decide)⟩

/-- C7: with no front-matter `title`, the resolved title is the stripped
first non-empty line (empty when there is none), and the returned body is
the line list with the leading title-matching lines (blank lines,
`#`-heading lines whose stripped text is the title, lines whose trimmed
text is the title) removed and rejoined; on the spec's concrete example the
title is `First Title` and the body keeps `Second Title` but loses
`First Title`. -/
theorem C7_title_extraction :
    (∀ (fm : Frontmatter) (md : Str), fm.get "title".toList = none →
      (get_title fm md).1 = specFallbackTitle md ∧
      (get_title fm md).2 = joinNl ((rustLines md).dropWhile (fun line =>
        trimStr line == ([] : Str) ||
        (['#'].isPrefixOf (trimStr line) &&
          trimStr (trimStartMatchesChar '#' line) == specFallbackTitle md) ||
        trimStr line == specFallbackTitle md))) ∧
    ((get_title [] "# First Title\nSecond Title\n".toList).1 =
        "First Title".toList ∧
      containsStr (get_title [] "# First Title\nSecond Title\n".toList).2
        "Second Title".toList = true ∧
      containsStr (get_title [] "# First Title\nSecond Title\n".toList).2
        "First Title".toList = false) := by
  constructor
  · intro fm md h
    unfold get_title specFallbackTitle
    rw [h]
    exact ⟨rfl, rfl⟩
  · exact ⟨by decide, by decide, by decide⟩

theorem C7_title_extraction_witness :
    (get_title [] "# A\nB".toList).1 = specFallbackTitle "# A\nB".toList :=
  (C7_title_extraction.1 [] "# A\nB".toList rfl).1

theorem dateDescCmp_swap (a b : Content) (h : dateDescCmp a b = .gt) :
    dateDescCmp b a ≠ .gt := by
  intro h2
  unfold dateDescCmp at h h2
  have hlt := (optDtCmp_gt_iff _ _).1 h
  rw [h2] at hlt
  simp at hlt

theorem dateDescCmp_trans (a b c : Content)
    (h1 : dateDescCmp a b ≠ .gt) (h2 : dateDescCmp b c ≠ .gt) :
    dateDescCmp a c ≠ .gt :=
  optDtCmp_notGt_trans h2 h1

theorem sizeDescCmp_swap (a b : Str × List Content) (h : sizeDescCmp a b = .gt) :
    sizeDescCmp b a ≠ .gt := by
  intro h2
  unfold sizeDescCmp at h h2
  rw [Nat.compare_eq_gt] at h h2
  omega

theorem sizeDescCmp_trans (a b c : Str × List Content)
    (h1 : sizeDescCmp a b ≠ .gt) (h2 : sizeDescCmp b c ≠ .gt) :
    sizeDescCmp a c ≠ .gt := by
  unfold sizeDescCmp at h1 h2 ⊢
  rw [Ne, Nat.compare_eq_gt] at h1 h2 ⊢
  omega

/-- C4: in the Tag arm of `iter`, (i) each emitted bucket is sorted by date
descending under the comparator `b.date.cmp(&a.date)` (so undated entries,
which compare below every date, come after all dated ones), (ii) dated
entries never follow undated ones, (iii) the emitted buckets are a
permutation of the date-sorted buckets of the map, (iv) each bucket sort is
a permutation of its input that keeps the relative order of entries with
equal dates (stability: filtering any fixed date value is unchanged), and
(v) when bucket sizes are pairwise distinct the buckets appear in strictly
decreasing size order. -/
theorem C4_tag_iteration (m : List (Str × List Content)) :
    (∀ p ∈ iterTag m, p.2.Pairwise (fun a b => dateDescCmp a b ≠ .gt)) ∧
    (∀ p ∈ iterTag m, p.2.Pairwise (fun a b => a.date = none → b.date = none)) ∧
    (iterTag m).Perm (m.map (fun kv => (kv.1, sortByCmp dateDescCmp kv.2))) ∧
    (∀ kv ∈ m, (sortByCmp dateDescCmp kv.2).Perm kv.2 ∧
      ∀ od : Option NaiveDateTime,
        (sortByCmp dateDescCmp kv.2).filter (fun c => c.date == od) =
          kv.2.filter (fun c => c.date == od)) ∧
    ((m.map (fun kv => kv.2.length)).Pairwise (· ≠ ·) →
      (iterTag m).Pairwise (fun p q => q.2.length < p.2.length)) := by
  have hmem : ∀ p ∈ iterTag m,
      ∃ kv ∈ m, p = (kv.1, sortByCmp dateDescCmp kv.2) := by
    intro p hp
    have hp2 := (sortByCmp_perm sizeDescCmp
      (m.map (fun kv => (kv.1, sortByCmp dateDescCmp kv.2)))).mem_iff.1 hp
    rcases List.mem_map.1 hp2 with ⟨kv, hkv, heq⟩
    exact ⟨kv, hkv, heq.symm⟩
  have part1 : ∀ p ∈ iterTag m, p.2.Pairwise (fun a b => dateDescCmp a b ≠ .gt) := by
    intro p hp
    rcases hmem p hp with ⟨kv, _, rfl⟩
    exact sortByCmp_pairwise dateDescCmp dateDescCmp_swap dateDescCmp_trans kv.2
  refine ⟨part1, ?_, sortByCmp_perm _ _, ?_, ?_⟩
  · intro p hp
    refine (part1 p hp).imp ?_
    intro a b hab hn
    cases hb : b.date with
    | none => rfl
    | some e =>
      exfalso
      apply hab
      unfold dateDescCmp
      rw [hb, hn]
      rfl
  · intro kv _
    refine ⟨sortByCmp_perm _ _, ?_⟩
    intro od
    apply sortByCmp_filter
    intro a b ha hb
    have ha2 : a.date = od := eq_of_beq ha
    have hb2 : b.date = od := eq_of_beq hb
    unfold dateDescCmp
    rw [ha2, hb2]
    exact optDtCmp_self od
  · intro hdist
    have hsorted := sortByCmp_pairwise sizeDescCmp sizeDescCmp_swap sizeDescCmp_trans
      (m.map (fun kv => (kv.1, sortByCmp dateDescCmp kv.2)))
    have hperm : (iterTag m).Perm (m.map (fun kv => (kv.1, sortByCmp dateDescCmp kv.2))) :=
      sortByCmp_perm _ _
    have hlen : (m.map (fun kv => (kv.1, sortByCmp dateDescCmp kv.2))).Pairwise
        (fun p q => p.2.length ≠ q.2.length) := by
      rw [List.pairwise_map]
      rw [List.pairwise_map] at hdist
      refine hdist.imp ?_
      intro a b h
      have la : (sortByCmp dateDescCmp a.2).length = a.2.length :=
        (sortByCmp_perm _ _).length_eq
      have lb : (sortByCmp dateDescCmp b.2).length = b.2.length :=
        (sortByCmp_perm _ _).length_eq
      simpa [la, lb] using h
    have hne : (iterTag m).Pairwise (fun p q => p.2.length ≠ q.2.length) :=
      (List.Perm.pairwise_iff (fun {_ _} h => Ne.symm h) hperm).2 hlen
    refine (hsorted.and hne).imp ?_
    intro p q hpq
    rcases hpq with ⟨hle, hneq⟩
    unfold sizeDescCmp at hle
    rw [Ne, Nat.compare_eq_gt] at hle
    omega

theorem C4_tag_iteration_witness :
    (iterTag [("b".toList, [testContent "x".toList none]),
      ("a".toList, [testContent "y".toList none,
        testContent "z".toList (some ⟨2024, 1, 1, 0, 0, 0⟩)])]).Pairwise
      (fun p q => q.2.length < p.2.length) :=
  (C4_tag_iteration _).2.2.2.2 (by decide)

/-- C1 counterexample: with empty front-matter (no `slug`, no `title`) and
path `My File.md`, the filename branch of `get_slug` returns the stem
verbatim — `My File` — which contains an uppercase letter and a space, so
the result is not restricted to `[a-z0-9-]` in every branch. -/
theorem C1_counterexample :
    get_slug id id [] "My File.md".toList = some "My File".toList ∧
    ¬ (∀ c ∈ "My File".toList, isSlugChar c = true) :=
  ⟨by decide, by decide⟩

/-- C1 amended: `get_slug` is URL-safe (characters in `[a-z0-9-]` only) on
the front-matter branches — whenever a `slug` key is present, or no `slug`
but a `title` key is present — provided the resolved stream is the default
`"index"` (so no raw stream text is prepended); the slugifier guarantees
the alphabet whatever the NFD/lowercase maps do.  The filename branch, and
a non-`"index"` stream prefix, pass raw text through (see the
counterexample). -/
theorem C1_slug_urlsafe_amended (nfd lower : Str → Str) (fm : Frontmatter)
    (path : Str)
    (hstream : get_stream fm = some (some "index".toList))
    (hbranch : (∃ v, fm.get "slug".toList = some v) ∨
      (fm.get "slug".toList = none ∧ ∃ v, fm.get "title".toList = some v)) :
    ∃ s, get_slug nfd lower fm path = some s ∧ ∀ c ∈ s, isSlugChar c = true := by
  unfold get_slug
  rw [hstream]
  rcases hbranch with ⟨v, hv⟩ | ⟨hns, v, hv⟩
  · rw [hv]
    exact ⟨slugify nfd lower (Value.display v), by simp, fun c hc => slugify_mem hc⟩
  · rw [hns, hv]
    exact ⟨slugify nfd lower (Value.display v), by simp, fun c hc => slugify_mem hc⟩

theorem C1_slug_urlsafe_amended_witness :
    ∃ s, get_slug id id [("slug".toList, Value.vstr "Hello World".toList)]
        "x.md".toList = some s ∧ ∀ c ∈ s, isSlugChar c = true :=
  C1_slug_urlsafe_amended id id _ _ rfl (Or.inl ⟨_, rfl⟩)

/-- C2 counterexample: for `2024-01-01-a-2024-01-01-b.md` (no front-matter
keys), `str::replace` deletes *every* occurrence of `2024-01-01-`, giving
slug `a-b`; deleting only the first occurrence, as the claim states, would
give `a-2024-01-01-b`. -/
theorem C2_counterexample :
    get_slug id id [] "2024-01-01-a-2024-01-01-b.md".toList =
        some "a-b".toList ∧
    removeFirstOcc "2024-01-01-".toList
        (fileStem "2024-01-01-a-2024-01-01-b.md".toList) =
      "a-2024-01-01-b".toList ∧
    ("a-b".toList : Str) ≠ "a-2024-01-01-b".toList :=
  ⟨by decide, by decide, by decide⟩

/-- C2 amended: with neither `slug` nor `title` nor `stream` keys (so the
stream stays `"index"` and nothing is prepended) and a filename scan that
yields a date, `get_slug` returns the file stem with **every**
non-overlapping occurrence of `"YYYY-MM-DD-"` (the date rendering followed
by a hyphen) deleted — `str::replace` replaces all matches, not only the
first; a standalone date not followed by a hyphen is still left in place,
since the pattern includes the trailing hyphen.  (`none` only when the path
has no file name, where the real code panics.) -/
theorem C2_slug_date_removal_amended (nfd lower : Str → Str) (fm : Frontmatter)
    (path : Str) (d : NaiveDateTime)
    (hslug : fm.get "slug".toList = none)
    (htitle : fm.get "title".toList = none)
    (hstream : fm.get "stream".toList = none)
    (hdate : extract_date_from_filename path = some d) :
    get_slug nfd lower fm path =
      (fileName path).map
        (fun name => replaceAll (dateDisplay d ++ ['-']) [] (fileStem name)) := by
  have hs : get_stream fm = some (some "index".toList) := by
    unfold get_stream
    rw [hstream]
  unfold get_slug
  rw [hs, hslug, htitle, hdate]
  cases hfn : fileName path with
  | none => rfl
  | some name => simp

theorem C2_slug_date_removal_amended_witness :
    get_slug id id [] "2024-01-01-a-2024-01-01-b.md".toList =
      (fileName "2024-01-01-a-2024-01-01-b.md".toList).map
        (fun name => replaceAll (dateDisplay ⟨2024, 1, 1, 0, 0, 0⟩ ++ ['-']) []
          (fileStem name)) :=
  C2_slug_date_removal_amended id id [] _ ⟨2024, 1, 1, 0, 0, 0⟩ rfl rfl rfl (by decide)
